import Mathlib

/-!
Verification of the utterance timing and audio-reconstruction pipeline of
the open-dubbing repository, against its natural-language specification.

The repository source available here is `open_dubbing/main.py` together
with the test suite; the `open_dubbing/audio_processing.py` module that the
tests exercise is absent, so its operations (`create_pyannote_timestamps`,
`_cut_and_save_audio`, `run_cut_and_save_audio`,
`_needs_background_normalization`, `insert_audio_at_timestamps`) are
modelled from the specification and checked against the behaviour the
repository's tests pin down.

Audio tracks are modelled as lists of rational samples expressed as
fractions of full scale (the specification's data model for loudness
analysis and assembly); timestamps are rational seconds, and a discrete
sample rate turns seconds into sample positions.
-/

namespace OpenDubbing

/-- Modelled from the spec: the error taxonomy of section 7
(`InvalidIntervalError`, `MissingDubbedAudioError`,
`UnsupportedFormatError`); the defining module is absent from src/. -/
inductive DubError where
  | InvalidIntervalError
  | MissingDubbedAudioError
  | UnsupportedFormatError
deriving DecidableEq, Repr

/-! ### LoudnessAnalyzer -/

/-- Modelled from the spec: the peak absolute sample amplitude of a track,
normalized to `[0, 1]` relative to full scale; samples are already stored
as fractions of full scale, so this is the maximum of their absolute
values. -/
def maxAmplitude (samples : List ℚ) : ℚ :=
  (samples.map (fun s => |s|)).foldr max 0

/-- Modelled from the spec: the fixed high-confidence threshold near full
scale used by `_needs_background_normalization` in
`open_dubbing/audio_processing.py`, a module absent from src/. The spec
gives no numeric value but requires that a track whose peak equals full
scale is reported as needing normalization, so the threshold is taken to
be full scale itself, compared inclusively. -/
def _MAX_AMPLITUDE_THRESHOLD : ℚ := 1

/-- Modelled from the spec: `_needs_background_normalization` of
`open_dubbing/audio_processing.py`, a module absent from src/. All-zero
tracks report `(false, 0)`; otherwise `max_amplitude` is the actual peak
fraction of full scale and `needs_normalization` holds whenever it does
not exceed the fixed high-confidence threshold. -/
def _needs_background_normalization (samples : List ℚ) : Bool × ℚ :=
  let m := maxAmplitude samples
  if m = 0 then (false, 0)
  else (decide (m ≤ _MAX_AMPLITUDE_THRESHOLD), m)

theorem abs_le_maxAmplitude {s : ℚ} {samples : List ℚ} :
    s ∈ samples → |s| ≤ maxAmplitude samples := by
  induction samples with
  | nil => intro h; cases h
  | cons a l ih =>
    intro h
    rcases List.mem_cons.mp h with rfl | hmem
    · exact le_max_left _ _
    · exact le_trans (ih hmem) (le_max_right _ _)

theorem maxAmplitude_nonneg (samples : List ℚ) : 0 ≤ maxAmplitude samples := by
  induction samples with
  | nil => exact le_refl 0
  | cons a l ih => exact le_trans ih (le_max_right _ _)

theorem maxAmplitude_eq_zero_of_all_zero {samples : List ℚ} :
    (∀ s ∈ samples, s = 0) → maxAmplitude samples = 0 := by
  induction samples with
  | nil => intro; rfl
  | cons a l ih =>
    intro h
    have ha : a = 0 := h a (List.mem_cons_self a l)
    have hl : maxAmplitude l = 0 := ih (fun s hs => h s (List.mem_cons_of_mem a hs))
    show max |a| (maxAmplitude l) = 0
    rw [ha, hl, abs_zero, max_self]

/-- Claim C2: For every background track whose samples are all zero (pure
digital silence), the loudness analyzer returns
`needs_normalization = false` and `max_amplitude = 0`. -/
theorem needs_background_normalization_all_zero (samples : List ℚ)
    (h : ∀ s ∈ samples, s = 0) :
    _needs_background_normalization samples = (false, 0) := by
  unfold _needs_background_normalization
  simp [maxAmplitude_eq_zero_of_all_zero h]

theorem needs_background_normalization_all_zero_witness :
    _needs_background_normalization [0, 0, 0] = (false, 0) :=
  needs_background_normalization_all_zero [0, 0, 0] (by decide)

/-- Claim C1: For every non-all-zero background track, the loudness analyzer
reports `needs_normalization = true` exactly when the computed peak
fraction `max_amplitude` lies at or below the fixed high-confidence
threshold at full scale; and whenever the peak equals full scale the
result is `(true, 1)`. -/
theorem needs_background_normalization_nonzero (samples : List ℚ) :
    ((∃ s ∈ samples, s ≠ 0) →
      ((_needs_background_normalization samples).1 = true ↔
        (_needs_background_normalization samples).2 ≤ _MAX_AMPLITUDE_THRESHOLD)) ∧
    (maxAmplitude samples = 1 →
      _needs_background_normalization samples = (true, 1)) := by
  constructor
  · rintro ⟨s, hs, hne⟩
    have hpos : 0 < |s| := abs_pos.mpr hne
    have hm : maxAmplitude samples ≠ 0 :=
      ne_of_gt (lt_of_lt_of_le hpos (abs_le_maxAmplitude hs))
    unfold _needs_background_normalization
    simp [hm]
  · intro hmax
    unfold _needs_background_normalization
    rw [hmax]
    simp [_MAX_AMPLITUDE_THRESHOLD]

theorem needs_background_normalization_nonzero_witness :
    (∃ s ∈ [(1 : ℚ)], s ≠ 0) ∧
      _needs_background_normalization [(1 : ℚ)] = (true, 1) := by
  refine ⟨⟨1, by decide, by decide⟩, ?_⟩
  exact (needs_background_normalization_nonzero [(1 : ℚ)]).2 (by decide)

/-! ### TrackAssembler -/

/-- Modelled from the spec: the canonical target reference loudness that
gain adjustment maps the measured peak toward; the spec gives no numeric
value, so full scale is used. -/
def _TARGET_LOUDNESS : ℚ := 1

/-- Clamp a sample to the representable full-scale range, the spec's
"clipped to avoid overflow" on gain-adjusted samples. -/
def clampFullScale (x : ℚ) : ℚ := max (-1) (min 1 x)

/-- Modelled from the spec: step 1 of the TrackAssembler algorithm in
`open_dubbing/audio_processing.py`, a module absent from src/. When the
loudness analyzer reports `needs_normalization`, a linear gain of
`target / measured` is applied, clipped to avoid overflow; otherwise the
background is left untouched. -/
def normalize_background (bg : List ℚ) : List ℚ :=
  let nm := _needs_background_normalization bg
  if nm.1 then bg.map (fun s => clampFullScale (s * (_TARGET_LOUDNESS / nm.2)))
  else bg

/-- Sample index of a timestamp in seconds at a given sample rate: the
floor of `t * rate`, computed on the numerator and denominator so that it
evaluates inside the kernel (for nonnegative `t` this is exactly
`⌊t * rate⌋`, and negative timestamps clamp to zero). -/
def samplePos (t : ℚ) (rate : ℕ) : ℕ := t.num.toNat * rate / t.den

/-- Modelled from the spec: additive overlay of a chunk onto a timeline at
a sample offset; samples in the overlap are summed, the timeline extends
when the chunk overruns its end, and the chunk is neither stretched nor
trimmed. -/
def overlay (bg : List ℚ) (pos : ℕ) (chunk : List ℚ) : List ℚ :=
  (List.range (max bg.length (pos + chunk.length))).map
    (fun i =>
      bg.getD i 0 +
        (if pos ≤ i ∧ i - pos < chunk.length then chunk.getD (i - pos) 0 else 0))

/-- Modelled from the spec: the utterance record fields consumed by the
TrackAssembler; `dubbed_path` stands for the synthesized chunk the path
refers to, `none` when no synthesized audio is attached. -/
structure UtteranceRecord where
  start : ℚ
  end_ : ℚ
  for_dubbing : Bool
  dubbed_path : Option (List ℚ)

/-- Modelled from the spec: the per-record loop of
`insert_audio_at_timestamps`. Records with `for_dubbing = false`
contribute nothing; an eligible record without dubbed audio fails fast
with `MissingDubbedAudioError`; otherwise its chunk is overlaid at the
record's start position. -/
def insertLoop : List UtteranceRecord → List ℚ → ℕ → Except DubError (List ℚ)
  | [], acc, _ => .ok acc
  | r :: rs, acc, rate =>
    if r.for_dubbing then
      match r.dubbed_path with
      | none => .error .MissingDubbedAudioError
      | some chunk => insertLoop rs (overlay acc (samplePos r.start rate) chunk) rate
    else insertLoop rs acc rate

/-- Modelled from the spec: `insert_audio_at_timestamps` of
`open_dubbing/audio_processing.py`, a module absent from src/. The
(possibly gain-adjusted) background is loaded once and each record is
processed in order; the resulting full-length mix is returned (the final
write to `output_directory` is outside the model). -/
def insert_audio_at_timestamps (metadata : List UtteranceRecord)
    (background : List ℚ) (rate : ℕ) : Except DubError (List ℚ) :=
  insertLoop metadata (normalize_background background) rate

theorem getD_range_map {f : ℕ → ℚ} {n i : ℕ} (h : i < n) :
    ((List.range n).map f).getD i 0 = f i := by
  rw [List.getD_eq_getElem?_getD, List.getElem?_map, List.getElem?_range h]
  rfl

theorem overlay_length (bg : List ℚ) (pos : ℕ) (chunk : List ℚ) :
    (overlay bg pos chunk).length = max bg.length (pos + chunk.length) := by
  unfold overlay
  rw [List.length_map, List.length_range]

theorem overlay_getD (bg : List ℚ) (pos : ℕ) (chunk : List ℚ) (i : ℕ)
    (h : i < (overlay bg pos chunk).length) :
    (overlay bg pos chunk).getD i 0 =
      bg.getD i 0 +
        (if pos ≤ i ∧ i - pos < chunk.length then chunk.getD (i - pos) 0 else 0) := by
  rw [overlay_length] at h
  unfold overlay
  exact getD_range_map h

theorem getD_replicate_zero (n i : ℕ) :
    (List.replicate n (0 : ℚ)).getD i 0 = 0 := by
  rw [List.getD_eq_getElem?_getD]
  rcases lt_or_ge i n with h | h
  · rw [List.getElem?_replicate]
    simp [h]
  · rw [List.getElem?_eq_none (by simpa using h)]
    rfl

theorem normalize_background_length (bg : List ℚ) :
    (normalize_background bg).length = bg.length := by
  unfold normalize_background
  by_cases h : (_needs_background_normalization bg).1 <;> simp [h]

theorem normalize_background_all_zero {bg : List ℚ} (h : ∀ s ∈ bg, s = 0) :
    normalize_background bg = bg := by
  unfold normalize_background
  rw [needs_background_normalization_all_zero bg h]
  simp

theorem insertLoop_all_skip {l : List UtteranceRecord} :
    ∀ (acc : List ℚ) (rate : ℕ), (∀ r ∈ l, r.for_dubbing = false) →
      insertLoop l acc rate = .ok acc := by
  induction l with
  | nil => intro acc rate _; rfl
  | cons a rs ih =>
    intro acc rate h
    have ha : a.for_dubbing = false := h a (List.mem_cons_self a rs)
    simp only [insertLoop, ha, Bool.false_eq_true, if_false]
    exact ih acc rate (fun r hr => h r (List.mem_cons_of_mem a hr))

/-- Claim C5: For a metadata list in which no record has
`for_dubbing = true`, the assembler overlays nothing: the returned output
track is exactly the (possibly gain-adjusted) background, whose content
length equals the background's. -/
theorem insert_audio_no_eligible (metadata : List UtteranceRecord)
    (background : List ℚ) (rate : ℕ)
    (h : ∀ r ∈ metadata, r.for_dubbing = false) :
    insert_audio_at_timestamps metadata background rate =
      Except.ok (normalize_background background) ∧
    (normalize_background background).length = background.length :=
  ⟨insertLoop_all_skip _ rate h, normalize_background_length background⟩

theorem insert_audio_no_eligible_witness :
    insert_audio_at_timestamps [⟨0, 1, false, none⟩] [(1 : ℚ)/2] 1 =
      Except.ok (normalize_background [(1 : ℚ)/2]) ∧
    (normalize_background [(1 : ℚ)/2]).length = 1 :=
  insert_audio_no_eligible [⟨0, 1, false, none⟩] [(1 : ℚ)/2] 1 (by
    intro r hr
    rcases List.mem_singleton.mp hr with rfl
    rfl)

theorem insertLoop_missing {r : UtteranceRecord} (hd : r.for_dubbing = true)
    (hp : r.dubbed_path = none) :
    ∀ (l : List UtteranceRecord) (acc : List ℚ) (rate : ℕ), r ∈ l →
      insertLoop l acc rate = .error DubError.MissingDubbedAudioError := by
  intro l
  induction l with
  | nil => intro acc rate hmem; cases hmem
  | cons a rs ih =>
    intro acc rate hmem
    rcases List.mem_cons.mp hmem with rfl | hmem
    · simp only [insertLoop, hd, if_true, hp]
    · cases ha : a.for_dubbing with
      | false =>
        simp only [insertLoop, ha, Bool.false_eq_true, if_false]
        exact ih _ _ hmem
      | true =>
        cases hpath : a.dubbed_path with
        | none => simp only [insertLoop, ha, if_true, hpath]
        | some chunk =>
          simp only [insertLoop, ha, if_true, hpath]
          exact ih _ _ hmem

/-- Claim C9: A record with `for_dubbing = true` whose dubbed audio is
missing makes the assembler fail fast with `MissingDubbedAudioError`; it
is never silently skipped, wherever it sits in the metadata list. -/
theorem insert_audio_missing_dubbed (metadata : List UtteranceRecord)
    (background : List ℚ) (rate : ℕ) (r : UtteranceRecord)
    (hmem : r ∈ metadata) (hd : r.for_dubbing = true)
    (hp : r.dubbed_path = none) :
    insert_audio_at_timestamps metadata background rate =
      .error DubError.MissingDubbedAudioError :=
  insertLoop_missing hd hp metadata _ rate hmem

theorem insert_audio_missing_dubbed_witness :
    insert_audio_at_timestamps [⟨0, 1, true, none⟩] [] 1 =
      .error DubError.MissingDubbedAudioError :=
  insert_audio_missing_dubbed [⟨0, 1, true, none⟩] [] 1 ⟨0, 1, true, none⟩
    (List.mem_cons_self _ _) rfl rfl

theorem samplePos_natCast (n rate : ℕ) : samplePos (n : ℚ) rate = n * rate := by
  unfold samplePos
  rw [Rat.num_natCast, Rat.den_natCast, Int.toNat_natCast, Nat.div_one]

/-- Claim C6: A single eligible record `{start 3, end 5}` whose dubbed chunk
lasts two seconds, mixed onto a ten-second silent background, yields a
ten-second output whose samples are zero everywhere outside the window
`[3, 5)` in seconds. -/
theorem insert_audio_single_record (rate : ℕ) (chunk : List ℚ)
    (hc : chunk.length = 2 * rate) :
    ∃ out,
      insert_audio_at_timestamps [⟨3, 5, true, some chunk⟩]
          (List.replicate (10 * rate) 0) rate = Except.ok out ∧
      out.length = 10 * rate ∧
      ∀ i < out.length, i < 3 * rate ∨ 5 * rate ≤ i → out.getD i 0 = 0 := by
  have hbg : normalize_background (List.replicate (10 * rate) 0) =
      List.replicate (10 * rate) 0 :=
    normalize_background_all_zero (fun s hs => List.eq_of_mem_replicate hs)
  have hpos : samplePos (3 : ℚ) rate = 3 * rate := by
    simp [samplePos]
  refine ⟨overlay (List.replicate (10 * rate) 0) (3 * rate) chunk, ?_, ?_, ?_⟩
  · unfold insert_audio_at_timestamps
    rw [hbg]
    simp only [insertLoop, if_true, hpos]
  · rw [overlay_length, hc, List.length_replicate]
    omega
  · intro i hi hout
    rw [overlay_length, List.length_replicate] at hi
    rw [overlay_getD _ _ _ _ (by rw [overlay_length, List.length_replicate]; exact hi),
      getD_replicate_zero]
    split_ifs with hg
    · exfalso
      rw [hc] at hg
      rcases hout with h1 | h1 <;> omega
    · norm_num

theorem insert_audio_single_record_witness :
    ∃ out,
      insert_audio_at_timestamps [⟨3, 5, true, some [1, 1]⟩]
          (List.replicate (10 * 1) 0) 1 = Except.ok out ∧
      out.length = 10 * 1 ∧
      ∀ i < out.length, i < 3 * 1 ∨ 5 * 1 ≤ i → out.getD i 0 = 0 :=
  insert_audio_single_record 1 [1, 1] (by decide)

/-- Claim C7: An eligible record whose dubbed chunk outlasts its original
window `[start, end)` is placed at the record's start with its natural
duration, neither stretched nor trimmed: the mix extends at least to the
chunk's natural end, and every chunk sample is added unchanged to the
background at its natural offset. -/
theorem insert_audio_long_chunk (background : List ℚ) (rate : ℕ)
    (r : UtteranceRecord) (chunk : List ℚ)
    (hd : r.for_dubbing = true) (hp : r.dubbed_path = some chunk)
    (_hlong : (r.end_ - r.start) * rate < chunk.length) :
    insert_audio_at_timestamps [r] background rate =
      Except.ok
        (overlay (normalize_background background) (samplePos r.start rate) chunk) ∧
    samplePos r.start rate + chunk.length ≤
      (overlay (normalize_background background) (samplePos r.start rate)
        chunk).length ∧
    ∀ i < chunk.length,
      (overlay (normalize_background background) (samplePos r.start rate)
            chunk).getD (samplePos r.start rate + i) 0 =
        (normalize_background background).getD (samplePos r.start rate + i) 0 +
          chunk.getD i 0 := by
  refine ⟨?_, ?_, ?_⟩
  · unfold insert_audio_at_timestamps
    simp only [insertLoop, hd, if_true, hp]
  · rw [overlay_length]
    exact le_max_right _ _
  · intro i hi
    have hlt : samplePos r.start rate + i <
        (overlay (normalize_background background) (samplePos r.start rate)
          chunk).length := by
      rw [overlay_length]
      exact lt_of_lt_of_le (by omega) (le_max_right _ _)
    rw [overlay_getD _ _ _ _ hlt]
    rw [if_pos ⟨Nat.le_add_right _ _, by omega⟩]
    congr 2
    omega

theorem insert_audio_long_chunk_witness :
    insert_audio_at_timestamps [⟨0, 1, true, some [1, 2, 3]⟩] [] 1 =
      Except.ok (overlay (normalize_background []) (samplePos 0 1) [1, 2, 3]) ∧
    samplePos 0 1 + 3 ≤
      (overlay (normalize_background []) (samplePos 0 1) [1, 2, 3]).length ∧
    ∀ i < 3,
      (overlay (normalize_background []) (samplePos 0 1) [1, 2, 3]).getD
          (samplePos 0 1 + i) 0 =
        (normalize_background []).getD (samplePos 0 1 + i) 0 +
          [(1 : ℚ), 2, 3].getD i 0 := by
  have h := insert_audio_long_chunk [] 1 ⟨0, 1, true, some [1, 2, 3]⟩ [1, 2, 3]
    rfl rfl (by norm_num)
  exact h

/-! ### UtteranceChunker -/

/-- The ASCII digit character for a digit value. -/
def digitChar (d : ℕ) : Char := Char.ofNat (48 + d)

/-- Decimal digits of a natural number, most significant first
(fuel-driven division by ten). -/
def natReprAux : ℕ → ℕ → List Char
  | 0, _ => []
  | fuel + 1, n =>
    if n < 10 then [digitChar n]
    else natReprAux fuel (n / 10) ++ [digitChar (n % 10)]

def natRepr (n : ℕ) : List Char := natReprAux (n + 1) n

/-- Fractional decimal digits of the fraction `n / d` with `n < d`,
long-division style, stopping when the remainder vanishes; the fuel bound
mirrors the longest digit string a double's shortest round-trip
representation can need. -/
def fracDigitsNat : ℕ → ℕ → ℕ → List ℕ
  | 0, _, _ => []
  | fuel + 1, n, d =>
    if n = 0 then []
    else (n * 10 / d) :: fracDigitsNat fuel (n * 10 % d) d

/-- Modelled from the spec: the deterministic decimal rendering of a
nonnegative timestamp used in chunk filenames, matching Python's string
form of a float on decimal-exact values (at least one fractional digit,
no trailing zeros beyond it: `0 ↦ "0.0"`, `1/10 ↦ "0.1"`). -/
def floatRepr (q : ℚ) : List Char :=
  let n := q.num.toNat
  let ds := fracDigitsNat 17 (n % q.den) q.den
  let ds := if ds = [] then [0] else ds
  natRepr (n / q.den) ++ ['.'] ++ ds.map digitChar

/-- Modelled from the spec: the deterministic chunk filename
`<prefix>_<start>_<end>.<ext>`. -/
def chunk_filename (pre : List Char) (s e : ℚ) (ext : List Char) : List Char :=
  pre ++ ['_'] ++ floatRepr s ++ ['_'] ++ floatRepr e ++ ['.'] ++ ext

/-- An interval handed to the chunker: `start`/`end` in seconds. -/
structure CutInterval where
  start : ℚ
  end_ : ℚ
deriving DecidableEq

/-- A chunk record returned by the chunker, its written path populated. -/
structure CutRecord where
  path : List Char
  start : ℚ
  end_ : ℚ
deriving DecidableEq

/-- The caller-supplied prefix the pipeline uses for chunk files. -/
def chunkPre : List Char := ['c', 'h', 'u', 'n', 'k']

deriving instance DecidableEq for Except

/-- Modelled from the spec: `_cut_and_save_audio` of
`open_dubbing/audio_processing.py`, a module absent from src/. A
zero-length or inverted interval fails with `InvalidIntervalError`;
otherwise the samples of `[start, end)` — clamped to the track length —
are written under the deterministic filename in the output directory, and
the written path is returned together with the chunk content. -/
def _cut_and_save_audio (audio : List ℚ) (rate : ℕ) (u : CutInterval)
    (pre output_directory ext : List Char) :
    Except DubError (List Char × List ℚ) :=
  if u.end_ ≤ u.start then .error .InvalidIntervalError
  else
    let s := samplePos u.start rate
    let e := min (samplePos u.end_ rate) audio.length
    .ok (output_directory ++ ['/'] ++ chunk_filename pre u.start u.end_ ext,
      (audio.take e).drop s)

/-- Modelled from the spec: `run_cut_and_save_audio` of
`open_dubbing/audio_processing.py`, a module absent from src/. Every
interval of the metadata list is cut with prefix `chunk`, and one record
per interval is returned, order preserved, with `path` populated. -/
def run_cut_and_save_audio :
    List CutInterval → List ℚ → ℕ → List Char → List Char →
      Except DubError (List CutRecord)
  | [], _, _, _, _ => .ok []
  | u :: us, audio, rate, dir, ext =>
    match _cut_and_save_audio audio rate u chunkPre dir ext with
    | .error e => .error e
    | .ok pc =>
      match run_cut_and_save_audio us audio rate dir ext with
      | .error e => .error e
      | .ok recs => .ok (⟨pc.1, u.start, u.end_⟩ :: recs)

/-- Claim C8: A zero-length or inverted interval (`end ≤ start`) makes the
chunker fail with `InvalidIntervalError` instead of producing a chunk
file. -/
theorem cut_and_save_invalid_interval (audio : List ℚ) (rate : ℕ)
    (u : CutInterval) (pre dir ext : List Char) (h : u.end_ ≤ u.start) :
    _cut_and_save_audio audio rate u pre dir ext =
      .error DubError.InvalidIntervalError := by
  unfold _cut_and_save_audio
  rw [if_pos h]

theorem cut_and_save_invalid_interval_witness :
    _cut_and_save_audio [0, 0] 1 ⟨2, 2⟩ chunkPre [] [] =
      .error DubError.InvalidIntervalError :=
  cut_and_save_invalid_interval [0, 0] 1 ⟨2, 2⟩ chunkPre [] []
    (by norm_num)

/-- Claim C3: The chunker writes each chunk to the deterministic path
`<dir>/<prefix>_<start>_<end>.<ext>`, which depends only on the
directory, prefix, timestamps and extension — so two runs with identical
inputs produce identical filenames; and the interval list
`[{start 0, end 5}]` over a ten-second track yields exactly the file
`chunk_0.0_5.0.mp3`. -/
theorem cut_and_save_deterministic_path :
    (∀ (audio : List ℚ) (rate : ℕ) (u : CutInterval)
        (pre dir ext : List Char), u.start < u.end_ →
      ∃ c, _cut_and_save_audio audio rate u pre dir ext =
        .ok (dir ++ ['/'] ++ pre ++ ['_'] ++ floatRepr u.start ++ ['_'] ++
          floatRepr u.end_ ++ ['.'] ++ ext, c)) ∧
    run_cut_and_save_audio [⟨0, 5⟩] (List.replicate 10 0) 1
        ("out".data) ("mp3".data) =
      .ok [⟨("out/chunk_0.0_5.0.mp3".data), 0, 5⟩] := by
  constructor
  · intro audio rate u pre dir ext h
    unfold _cut_and_save_audio
    rw [if_neg (not_le.mpr h)]
    exact ⟨(audio.take (min (samplePos u.end_ rate) audio.length)).drop
      (samplePos u.start rate), by simp only [chunk_filename, List.append_assoc]⟩
  · decide

theorem cut_and_save_deterministic_path_witness :
    ∃ c, _cut_and_save_audio (List.replicate 10 0) 1 ⟨0, 5⟩ chunkPre
        ("out".data) ("mp3".data) =
      .ok (("out".data) ++ ['/'] ++ chunkPre ++ ['_'] ++ floatRepr 0 ++
        ['_'] ++ floatRepr 5 ++ ['.'] ++ ("mp3".data), c) :=
  cut_and_save_deterministic_path.1 (List.replicate 10 0) 1 ⟨0, 5⟩
    chunkPre ("out".data) ("mp3".data) (by norm_num)

/-! ### TimestampExtractor -/

/-- A `(segment, _, label)` tuple yielded by the diarization engine's
`itertracks` call: segment bounds in seconds plus the speaker label. -/
structure PyannoteTrack where
  start : ℚ
  end_ : ℚ
  label : List Char

/-- One record of the timestamp list: `{start, end, speaker_id}`. -/
structure TimestampRecord where
  start : ℚ
  end_ : ℚ
  speaker_id : List Char
deriving DecidableEq

/-- Modelled from the spec: `create_pyannote_timestamps` of
`open_dubbing/audio_processing.py`, a module absent from src/. One record
is built per tuple the engine yields, with start, end and speaker label
copied unrounded and the engine's order preserved. -/
def create_pyannote_timestamps (tracks : List PyannoteTrack) :
    List TimestampRecord :=
  tracks.map (fun t => ⟨t.start, t.end_, t.label⟩)

/-- Claim C4: The timestamp extractor returns one `{start, end, speaker_id}`
record per tuple the engine yields, fields copied unrounded and order
preserved; when the engine's tuples are sorted by start ascending, so is
the output; and a degenerate engine reporting a single full-length track
`(0, duration)` still yields the one record `{0, duration, label}`. -/
theorem create_pyannote_timestamps_spec (tracks : List PyannoteTrack) :
    (create_pyannote_timestamps tracks).length = tracks.length ∧
    (∀ i : ℕ, (create_pyannote_timestamps tracks)[i]? =
      tracks[i]?.map (fun t => ⟨t.start, t.end_, t.label⟩)) ∧
    (List.Sorted (fun a b => a.start ≤ b.start) tracks →
      List.Sorted (fun a b => a.start ≤ b.start)
        (create_pyannote_timestamps tracks)) ∧
    (∀ (d : ℚ) (l : List Char),
      create_pyannote_timestamps [⟨0, d, l⟩] = [⟨0, d, l⟩]) := by
  refine ⟨List.length_map _ _, ?_, ?_, ?_⟩
  · intro i
    exact List.getElem?_map _ _ _
  · intro hs
    exact List.Pairwise.map _ (fun a b h => h) hs
  · intro d l
    rfl

theorem create_pyannote_timestamps_witness :
    (create_pyannote_timestamps [⟨0, 10, "SPEAKER_00".data⟩]).length = 1 ∧
    List.Sorted (fun a b => a.start ≤ b.start)
      (create_pyannote_timestamps [⟨0, 10, "SPEAKER_00".data⟩]) ∧
    create_pyannote_timestamps [⟨0, 10, "SPEAKER_00".data⟩] =
      [⟨0, 10, "SPEAKER_00".data⟩] :=
  ⟨(create_pyannote_timestamps_spec [⟨0, 10, "SPEAKER_00".data⟩]).1,
    (create_pyannote_timestamps_spec [⟨0, 10, "SPEAKER_00".data⟩]).2.2.1
      (List.sorted_singleton _),
    (create_pyannote_timestamps_spec [⟨0, 10, "SPEAKER_00".data⟩]).2.2.2 10
      ("SPEAKER_00".data)⟩

/-! ### main.py: check_is_a_video -/

/-- The exit codes of `open_dubbing/exit_code.py` referenced by
`main.py`; the enum module itself is not under src/, so only the
constructor names used there are modelled. -/
inductive ExitCode where
  | INVALID_FILEFORMAT
  | INVALID_LANGUAGE_SPT
  | INVALID_LANGUAGE_TRANS
  | INVALID_LANGUAGE_TTS
  | MISSING_HF_KEY
  | NO_FFMPEG
  | NO_COQUI_TTS
  | NO_COQUI_ESPEAK
  | NO_CLI_CFG_FILE
  | NO_TTS_API_SERVER
  | NO_APERTIUM_SERVER
deriving DecidableEq, Repr

/-- Python `str.rfind` for a single character: the greatest index holding
`c`, or `-1` when `c` is absent. -/
def pyRfind (s : List Char) (c : Char) : ℤ :=
  ((List.range s.length).filter (fun i => decide (s.getD i c = c))).foldl
    (fun _ i => (i : ℤ)) (-1)

/-- CPython's os.path.splitext on posix paths: split at
the last dot lying after the last path separator, unless every character
between that separator and the dot is itself a dot (a basename's leading
dots never start an extension). -/
def splitext (p : List Char) : List Char × List Char :=
  let sepIndex := pyRfind p '/'
  let dotIndex := pyRfind p '.'
  if sepIndex < dotIndex then
    let nameStart := (sepIndex + 1).toNat
    let dotI := dotIndex.toNat
    if (List.range' nameStart (dotI - nameStart)).all
        (fun i => decide (p.getD i '.' = '.')) then
      (p, [])
    else (p.take dotI, p.drop dotI)
  else (p, [])

def _ACCEPTED_VIDEO_FORMATS : List (List Char) := [['m', 'p', '4']]

/-- Embedding of check_is_a_video from `open_dubbing/main.py`: the input's extension is
computed by `splitext`, lowercased, stripped of leading dots, and checked
against the accepted formats; `none` models a normal return, `some code`
models `log_error_and_exit` (the logging side effect is outside the
model). -/
def check_is_a_video (input_file : List Char) : Option ExitCode :=
  let ext := (splitext input_file).2
  let ext := (ext.map Char.toLower).dropWhile (fun c => decide (c = '.'))
  if ext ∈ _ACCEPTED_VIDEO_FORMATS then none
  else some ExitCode.INVALID_FILEFORMAT

/-- Claim C10: `check_is_a_video` returns normally exactly when the file
extension, lowercased and stripped of its leading dot, is `mp4`; on every
other input it exits with `ExitCode.INVALID_FILEFORMAT` — never any other
code. Concrete checks: `video.mp4` and `video.MP4` pass, `video.avi` and
an extensionless `video` are rejected. -/
theorem check_is_a_video_spec :
    (∀ p : List Char,
      (check_is_a_video p = none ↔
        ((splitext p).2.map Char.toLower).dropWhile (fun c => decide (c = '.')) =
          ['m', 'p', '4']) ∧
      (check_is_a_video p = none ∨
        check_is_a_video p = some ExitCode.INVALID_FILEFORMAT)) ∧
    check_is_a_video ("video.mp4".data) = none ∧
    check_is_a_video ("video.MP4".data) = none ∧
    check_is_a_video ("video.avi".data) = some ExitCode.INVALID_FILEFORMAT ∧
    check_is_a_video ("video".data) = some ExitCode.INVALID_FILEFORMAT := by
  refine ⟨?_, by decide, by decide, by decide, by decide⟩
  intro p
  have he : check_is_a_video p =
      if ((splitext p).2.map Char.toLower).dropWhile (fun c => decide (c = '.')) =
          ['m', 'p', '4'] then none
      else some ExitCode.INVALID_FILEFORMAT := by
    simp only [check_is_a_video, _ACCEPTED_VIDEO_FORMATS, List.mem_singleton]
  rw [he]
  split_ifs with h
  · exact ⟨⟨fun _ => h, fun _ => rfl⟩, Or.inl rfl⟩
  · exact ⟨iff_of_false (by simp) h, Or.inr rfl⟩

end OpenDubbing
